import Mathlib

/-!
Verification of `FKaosGameplayTagStackContainer` and the GAS utility predicates.

Shallow embedding of the parts of the KaosGameFramework plugin that the
claims concern, translated from
`Source/KaosGASUtilities/Private/GameplayTags/KaosGameplayTagStackContainer.cpp`,
`Source/KaosGASUtilities/Private/AbilitySystem/KaosUtilitiesBlueprintLibrary.cpp`
and
`Source/KaosGASUtilities/Private/TargetingSystemTasks/KaosTargetingFilterTask_GameplayTags.cpp`.

Modelling conventions:

* `FGameplayTag` is its `FName`: a `Nat`, with `0` standing for `NAME_None`,
  so `IsValid()` is `name ≠ 0`.
* `int32` stack counts are modelled as `Int`.  Signed overflow is undefined
  behaviour in the C++ source, so no wrapping semantics exists to embed; all
  results are about the defined-behaviour regime.
* Unreal's `TMap` is modelled as an association list with unique keys kept by
  construction: `Add` overwrites in place or appends, `Remove` erases the key,
  `Find` returns the first binding.
* `TArray<FKaosGameplayTagStack>` is a `List`; `Emplace` appends and returns
  the old length, `RemoveAtSwap i` copies the last element over slot `i` and
  pops the tail, exactly as `TArray::RemoveAtSwap` does.
* The owner weak pointer together with the
  `Cast<IKaosGameplayTagStackOwnerInterface>` test is modelled by the boolean
  field `hasOwner`: owner notifications and `ForceReplication` fire only when
  it is `true`, while `MarkItemDirty` / `MarkArrayDirty` (calls into the
  fast-array serializer base, not the owner) fire unconditionally, as in the
  source.
* Side effects (owner callbacks and dirty marking) are reified as an emitted
  event list; each mutator returns the new container paired with its events.
* Engine-owned primitives that the plugin only calls are parameters of the
  model: `UGameplayTagsManager::RequestGameplayTagChildren` is an explicit
  `children` function argument, and tag matching in `HasAll` /
  `FGameplayTagRequirements` is flat containment (tag-hierarchy resolution is
  engine-owned and explicitly out of the spec's scope).
* `TMap::operator[]` asserts when the key is absent; in the source it is only
  reached with the key present (which the well-formedness invariant below
  guarantees), and the model uses overwrite-or-insert, which agrees on every
  such state.
-/

/-- A gameplay tag, reduced to its `FName`; `0` plays `NAME_None`. -/
structure FGameplayTag where
  name : Nat
deriving DecidableEq, Repr

/-- Model of `FGameplayTag::IsValid()`: the tag name is not `NAME_None`. -/
def FGameplayTag.isValid (t : FGameplayTag) : Bool :=
  t.name ≠ 0

/-! ## `TMap` as an association list -/

/-- Model of `TMap<FGameplayTag, β>` as an association list with unique keys kept by
construction. -/
def TagMap (β : Type) : Type :=
  List (FGameplayTag × β)

instance (β : Type) [DecidableEq β] : DecidableEq (TagMap β) :=
  inferInstanceAs (DecidableEq (List (FGameplayTag × β)))

instance (β : Type) [Repr β] : Repr (TagMap β) :=
  inferInstanceAs (Repr (List (FGameplayTag × β)))

/-- Model of `TMap::Find`: the binding of `k`, if any. -/
def TagMap.find? {β : Type} (m : TagMap β) (k : FGameplayTag) : Option β :=
  match m with
  | [] => none
  | (k', v) :: rest => if k' = k then some v else TagMap.find? rest k

/-- Model of `TMap::Add` (also `operator[]` on a present key): overwrite the binding
of `k` in place, or append a fresh one. -/
def TagMap.add {β : Type} (m : TagMap β) (k : FGameplayTag) (v : β) : TagMap β :=
  match m with
  | [] => [(k, v)]
  | (k', v') :: rest =>
      if k' = k then (k', v) :: rest else (k', v') :: TagMap.add rest k v

/-- Model of `TMap::Remove`: erase the binding of `k`. -/
def TagMap.remove {β : Type} (m : TagMap β) (k : FGameplayTag) : TagMap β :=
  match m with
  | [] => []
  | (k', v') :: rest =>
      if k' = k then TagMap.remove rest k else (k', v') :: TagMap.remove rest k

/-- Membership test `TMap::Contains`. -/
def TagMap.contains {β : Type} (m : TagMap β) (k : FGameplayTag) : Bool :=
  (m.find? k).isSome

/-- Model of `TMap::FindRef` for an `Int`-valued map: the binding or `0`. -/
def TagMap.findRef (m : TagMap Int) (k : FGameplayTag) : Int :=
  (m.find? k).getD 0

/-! ## The replicated stack entry and the container state -/

/-- Model of `FKaosGameplayTagStack`: one replicated (tag, count) entry.  All three
fields are `UPROPERTY`s of the fast-array item.  The two-argument
constructor used by `Stacks.Emplace(Tag, StackCount)` leaves
`PreviousCount` at its default `0`. -/
structure FKaosGameplayTagStack where
  tag : FGameplayTag
  stackCount : Int
  previousCount : Int
deriving DecidableEq, Repr

instance : Inhabited FKaosGameplayTagStack :=
  ⟨⟨⟨0⟩, 0, 0⟩⟩

/-- Model of `TArray::RemoveAtSwap i`: copy the last element over slot `i`, then pop
the tail.  Identity when the array is empty; the source only calls it with
`i` in range. -/
def removeAtSwap {α : Type} (xs : List α) (i : Nat) : List α :=
  match xs.getLast? with
  | none => xs
  | some lastElem => (xs.set i lastElem).dropLast

/-- The observable side effects of a container mutation, in emission order:
owner-interface callbacks and fast-array dirty marking. -/
inductive KaosEvent where
  | onTagStackAdded (tag : FGameplayTag) (count : Int)
  | onTagStackChanged (tag : FGameplayTag) (previousCount newCount : Int)
  | onTagStackRemoved (tag : FGameplayTag) (previousCount newCount : Int)
  | markItemDirty (tag : FGameplayTag)
  | markArrayDirty
  | forceReplication
deriving DecidableEq, Repr

/-- Emit `es` only when the owner cast succeeds (`b` is the result of
`Cast<IKaosGameplayTagStackOwnerInterface>(Owner.Get()) != nullptr`). -/
def ownerNotify (b : Bool) (es : List KaosEvent) : List KaosEvent :=
  if b then es else []

/-- Model of `FKaosGameplayTagStackContainer`: the replicated `Stacks` array, the
accelerated `TagToCountMap`, the `TagToIndexMap` acceleration kept by the
local mutators, and whether the owner implements the notification
interface. -/
structure FKaosGameplayTagStackContainer where
  Stacks : List FKaosGameplayTagStack
  TagToCountMap : TagMap Int
  TagToIndexMap : TagMap Nat
  hasOwner : Bool
deriving DecidableEq, Repr

namespace FKaosGameplayTagStackContainer

/-- A freshly constructed container. -/
def empty (hasOwner : Bool) : FKaosGameplayTagStackContainer :=
  { Stacks := [], TagToCountMap := [], TagToIndexMap := [], hasOwner := hasOwner }

/-- Model of `GetStackCount`: `TagToCountMap.FindRef(Tag)` — the count, or `0` when
absent. -/
def GetStackCount (c : FKaosGameplayTagStackContainer) (Tag : FGameplayTag) : Int :=
  c.TagToCountMap.findRef Tag

/-- Query `ContainsTag`: `TagToCountMap.Contains(Tag)`. -/
def ContainsTag (c : FKaosGameplayTagStackContainer) (Tag : FGameplayTag) : Bool :=
  c.TagToCountMap.contains Tag

/-- Model of `GetStackCountIncludingChildren(Tag, bExcludeParent)`.  The engine-owned
`UGameplayTagsManager::RequestGameplayTagChildren` is the `children`
parameter; `AddTagFast` appends the parent after the children, and the loop
adds each tag's stored count, or `0` when it has no stacks. -/
def GetStackCountIncludingChildren (children : FGameplayTag → List FGameplayTag)
    (c : FKaosGameplayTagStackContainer) (Tag : FGameplayTag) (bExcludeParent : Bool) :
    TagMap Int :=
  let tags := children Tag ++ (if bExcludeParent then [] else [Tag])
  tags.foldl
    (fun result child =>
      match c.TagToCountMap.find? child with
      | some count => result.add child count
      | none => result.add child 0)
    []

/-- Model of `AddStackCount(Tag, StackCount)`: reject invalid tags, do nothing for
`StackCount ≤ 0`, otherwise increment the existing entry (found through
`TagToIndexMap`) or emplace a new one, updating the accelerated maps,
notifying the owner and dirty-marking. -/
def AddStackCount (c : FKaosGameplayTagStackContainer) (Tag : FGameplayTag)
    (StackCount : Int) : FKaosGameplayTagStackContainer × List KaosEvent :=
  if Tag.isValid = false then (c, [])
  else if 0 < StackCount then
    match c.TagToIndexMap.find? Tag with
    | some foundIndex =>
        -- `Stacks[*FoundIndex]` range-checks fatally in `TArray`; the
        -- default is unreachable from well-formed states.
        let stack := c.Stacks.getD foundIndex default
        let newCount := stack.stackCount + StackCount
        let stack' : FKaosGameplayTagStack :=
          { stack with previousCount := stack.stackCount, stackCount := newCount }
        let c' := { c with
          Stacks := c.Stacks.set foundIndex stack'
          TagToCountMap := c.TagToCountMap.add Tag newCount }
        (c', ownerNotify c.hasOwner [.onTagStackChanged Tag stack.stackCount newCount]
              ++ [.markItemDirty Tag]
              ++ ownerNotify c.hasOwner [.forceReplication])
    | none =>
        let newStackIndex := c.Stacks.length
        let c' := { c with
          Stacks := c.Stacks ++ [⟨Tag, StackCount, 0⟩]
          TagToCountMap := c.TagToCountMap.add Tag StackCount
          TagToIndexMap := c.TagToIndexMap.add Tag newStackIndex }
        (c', ownerNotify c.hasOwner [.onTagStackAdded Tag StackCount]
              ++ [.markItemDirty Tag]
              ++ ownerNotify c.hasOwner [.forceReplication])
  else (c, [])

/-- Model of `RemoveStackCount(Tag, StackCount)`: reject invalid tags and
`StackCount ≤ 0`; for a stored tag, either delete the entry by swap-removal
(re-pointing the swapped-in entry's index) when its count is `≤ StackCount`,
or decrement it; the stale-index guard drops the stale `TagToIndexMap`
binding and returns. -/
def RemoveStackCount (c : FKaosGameplayTagStackContainer) (Tag : FGameplayTag)
    (StackCount : Int) : FKaosGameplayTagStackContainer × List KaosEvent :=
  if Tag.isValid = false then (c, [])
  else if StackCount ≤ 0 then (c, [])
  else
    match c.TagToIndexMap.find? Tag with
    | none => (c, [])
    | some foundIndex =>
        if foundIndex < c.Stacks.length then
          let stack := c.Stacks.getD foundIndex default
          if stack.stackCount ≤ StackCount then
            let previousCount := stack.stackCount
            let stacks' := removeAtSwap c.Stacks foundIndex
            let repointed :=
              if foundIndex < stacks'.length then
                c.TagToIndexMap.add (stacks'.getD foundIndex default).tag foundIndex
              else c.TagToIndexMap
            let c' := { c with
              Stacks := stacks'
              TagToCountMap := c.TagToCountMap.remove Tag
              TagToIndexMap := repointed.remove Tag }
            (c', ownerNotify c.hasOwner [.onTagStackRemoved Tag previousCount 0]
                  ++ [.markArrayDirty]
                  ++ ownerNotify c.hasOwner [.forceReplication])
          else
            let newCount := stack.stackCount - StackCount
            let stack' : FKaosGameplayTagStack :=
              { stack with previousCount := stack.stackCount, stackCount := newCount }
            let c' := { c with
              Stacks := c.Stacks.set foundIndex stack'
              TagToCountMap := c.TagToCountMap.add Tag newCount }
            (c', ownerNotify c.hasOwner [.onTagStackChanged Tag stack.stackCount newCount]
                  ++ [.markItemDirty Tag]
                  ++ ownerNotify c.hasOwner [.forceReplication])
        else
          ({ c with TagToIndexMap := c.TagToIndexMap.remove Tag }, [])

/-- Model of `RemoveStack(Tag)`: reject invalid tags; for a stored tag, delete its
entry unconditionally by swap-removal, re-point the swapped-in entry's
index, notify, mark the whole array dirty and force replication; the
stale-index guard drops the stale binding and returns. -/
def RemoveStack (c : FKaosGameplayTagStackContainer) (Tag : FGameplayTag) :
    FKaosGameplayTagStackContainer × List KaosEvent :=
  if Tag.isValid = false then (c, [])
  else
    match c.TagToIndexMap.find? Tag with
    | none => (c, [])
    | some foundIndex =>
        if foundIndex < c.Stacks.length then
          let stack := c.Stacks.getD foundIndex default
          let previousCount := stack.stackCount
          let stacks' := removeAtSwap c.Stacks foundIndex
          let repointed :=
            if foundIndex < stacks'.length then
              c.TagToIndexMap.add (stacks'.getD foundIndex default).tag foundIndex
            else c.TagToIndexMap
          let c' := { c with
            Stacks := stacks'
            TagToCountMap := c.TagToCountMap.remove Tag
            TagToIndexMap := repointed.remove Tag }
          (c', ownerNotify c.hasOwner [.onTagStackRemoved Tag previousCount 0]
                ++ [.markArrayDirty]
                ++ ownerNotify c.hasOwner [.forceReplication])
        else
          ({ c with TagToIndexMap := c.TagToIndexMap.remove Tag }, [])

/-- Model of `PreReplicatedRemove(RemovedIndices, FinalSize)`: for each still-valid
index, drop the entry's tag from `TagToCountMap` and notify the owner with
the entry's count and `0`.  The callback itself does not touch `Stacks`
(the serializer removes the entries afterwards) nor `TagToIndexMap`. -/
def PreReplicatedRemove (c : FKaosGameplayTagStackContainer)
    (RemovedIndices : List Nat) : FKaosGameplayTagStackContainer × List KaosEvent :=
  RemovedIndices.foldl
    (fun acc index =>
      let c := acc.1
      if index < c.Stacks.length then
        let stack := c.Stacks.getD index default
        ({ c with TagToCountMap := c.TagToCountMap.remove stack.tag },
          acc.2 ++ ownerNotify c.hasOwner
            [.onTagStackRemoved stack.tag stack.stackCount 0])
      else acc)
    (c, [])

/-- Model of `PostReplicatedAdd(AddedIndices, FinalSize)`: for each still-valid
index, set the entry's `PreviousCount` to its replicated count, record the
count in `TagToCountMap` and notify the owner of the add. -/
def PostReplicatedAdd (c : FKaosGameplayTagStackContainer)
    (AddedIndices : List Nat) : FKaosGameplayTagStackContainer × List KaosEvent :=
  AddedIndices.foldl
    (fun acc index =>
      let c := acc.1
      if index < c.Stacks.length then
        let stack := c.Stacks.getD index default
        let stack' := { stack with previousCount := stack.stackCount }
        ({ c with
            Stacks := c.Stacks.set index stack'
            TagToCountMap := c.TagToCountMap.add stack.tag stack.stackCount },
          acc.2 ++ ownerNotify c.hasOwner
            [.onTagStackAdded stack.tag stack'.stackCount])
      else acc)
    (c, [])

/-- Model of `PostReplicatedChange(ChangedIndices, FinalSize)`: for each still-valid
index, write the replicated count into `TagToCountMap`, overwrite the
entry's `PreviousCount` with its (already replicated) `StackCount`, and
notify the owner reading `Stacks[Index].PreviousCount` — which the
preceding line has just overwritten, so both count arguments are the
post-change count. -/
def PostReplicatedChange (c : FKaosGameplayTagStackContainer)
    (ChangedIndices : List Nat) : FKaosGameplayTagStackContainer × List KaosEvent :=
  ChangedIndices.foldl
    (fun acc index =>
      let c := acc.1
      if index < c.Stacks.length then
        let stack := c.Stacks.getD index default
        let stack' := { stack with previousCount := stack.stackCount }
        ({ c with
            Stacks := c.Stacks.set index stack'
            TagToCountMap := c.TagToCountMap.add stack.tag stack.stackCount },
          acc.2 ++ ownerNotify c.hasOwner
            [.onTagStackChanged stack.tag stack'.previousCount stack'.stackCount])
      else acc)
    (c, [])

end FKaosGameplayTagStackContainer

/-! ## Operation sequences

A container evolves by the three local mutators and by the three
fast-array-serializer replication events.  A replication event is the
engine's own edit of the replicated `Stacks` array (performed by
`FastArrayDeltaSerialize`, which owns the array) followed by the
corresponding container callback: items are appended before
`PostReplicatedAdd` runs, an item's replicated fields are overwritten
before `PostReplicatedChange` runs, and the removed items leave the array
only after `PreReplicatedRemove` has run. -/

inductive KaosOp where
  | addStackCount (Tag : FGameplayTag) (StackCount : Int)
  | removeStackCount (Tag : FGameplayTag) (StackCount : Int)
  | removeStack (Tag : FGameplayTag)
  | replicatedAdd (newItems : List FKaosGameplayTagStack)
  | replicatedChange (index : Nat) (newItem : FKaosGameplayTagStack)
  | replicatedRemove (indices : List Nat)
deriving DecidableEq, Repr

/-- The three mutators callable on the authority; the replication events
only ever run on receiving clients. -/
def KaosOp.isLocal : KaosOp → Bool
  | .addStackCount _ _ => true
  | .removeStackCount _ _ => true
  | .removeStack _ => true
  | _ => false

namespace FKaosGameplayTagStackContainer

/-- One step: apply an operation, returning the new container and the
events it emitted. -/
def applyOp (c : FKaosGameplayTagStackContainer) :
    KaosOp → FKaosGameplayTagStackContainer × List KaosEvent
  | .addStackCount Tag StackCount => c.AddStackCount Tag StackCount
  | .removeStackCount Tag StackCount => c.RemoveStackCount Tag StackCount
  | .removeStack Tag => c.RemoveStack Tag
  | .replicatedAdd newItems =>
      let afterAppend := { c with Stacks := c.Stacks ++ newItems }
      afterAppend.PostReplicatedAdd (List.range' c.Stacks.length newItems.length)
  | .replicatedChange index newItem =>
      let afterWrite := { c with Stacks := c.Stacks.set index newItem }
      afterWrite.PostReplicatedChange [index]
  | .replicatedRemove indices =>
      let (c', events) := c.PreReplicatedRemove indices
      ({ c' with
          Stacks := (c'.Stacks.enum.filter (fun p => decide (p.1 ∉ indices))).map
                      Prod.snd },
        events)

/-- Run a whole operation sequence, discarding the emitted events. -/
def runOps (c : FKaosGameplayTagStackContainer) (ops : List KaosOp) :
    FKaosGameplayTagStackContainer :=
  ops.foldl (fun c op => (c.applyOp op).1) c

/-! ## The consistency invariant -/

/-- Well-formedness of a container, as the spec's consistency property plus
the positivity every local history maintains:
`TagToCountMap` binds a tag to `n` exactly when some entry of `Stacks`
carries that tag with count `n`; `TagToIndexMap` binds a tag to `i` exactly
when the entry at index `i` of `Stacks` carries that tag; and every stored
count is strictly positive. -/
def WF (c : FKaosGameplayTagStackContainer) : Prop :=
  (∀ t n, c.TagToCountMap.find? t = some n ↔
      ∃ s ∈ c.Stacks, s.tag = t ∧ s.stackCount = n) ∧
  (∀ t i, c.TagToIndexMap.find? t = some i ↔
      ∃ s, c.Stacks[i]? = some s ∧ s.tag = t) ∧
  (∀ s ∈ c.Stacks, 0 < s.stackCount)

/-- The consistency property of claim C1, exactly as stated there: for
every tag, `TagToCountMap` contains it iff some entry of `Stacks` carries
it; the mapped count equals that entry's `StackCount`; and `TagToIndexMap`
maps each stored tag to the index of its entry. -/
def ClaimConsistent (c : FKaosGameplayTagStackContainer) : Prop :=
  (∀ t, c.TagToCountMap.contains t = true ↔ ∃ s ∈ c.Stacks, s.tag = t) ∧
  (∀ s ∈ c.Stacks, c.TagToCountMap.find? s.tag = some s.stackCount) ∧
  (∀ s ∈ c.Stacks, ∃ i, c.TagToIndexMap.find? s.tag = some i ∧
      c.Stacks[i]? = some s)

end FKaosGameplayTagStackContainer

/-! ## `UKaosUtilitiesBlueprintLibrary::CanActivateAbilityWithMatchingTags`

The ability system component, its activatable ability specs and the
abilities' asset tags are engine-owned records the function only reads;
they are modelled by the fields the function consults.  An ability's
`CanActivateAbility(Spec.Handle, ActorInfo)` verdict is the engine's and is
carried as a boolean field. -/

/-- Model of `FGameplayTagContainer::HasAll` over flat tag lists (hierarchical tag
matching is engine-owned and out of the spec's scope). -/
def hasAllTags (container queryTags : List FGameplayTag) : Bool :=
  queryTags.all (fun t => container.contains t)

/-- Model of `FGameplayTagContainer::HasAny` over flat tag lists. -/
def hasAnyTags (container queryTags : List FGameplayTag) : Bool :=
  queryTags.any (fun t => container.contains t)

/-- The part of `UGameplayAbility` the scan consults: its asset tags and
the engine's `CanActivateAbility` verdict for the spec at hand. -/
structure UGameplayAbility where
  assetTags : List FGameplayTag
  canActivateAbility : Bool
deriving DecidableEq, Repr

/-- Model of `FGameplayAbilitySpec`: the ability CDO may be null, in which case the
scan skips the spec. -/
structure FGameplayAbilitySpec where
  ability : Option UGameplayAbility
deriving DecidableEq, Repr

/-- The part of `UAbilitySystemComponent` the function reads: the copy of
`GetActivatableAbilities()`. -/
structure UAbilitySystemComponent where
  activatableAbilities : List FGameplayAbilitySpec
deriving DecidableEq, Repr

namespace UKaosUtilitiesBlueprintLibrary

/-- The `for (const FGameplayAbilitySpec& Spec : Specs)` loop: skip null
abilities; on the first spec whose asset tags contain all the queried tags,
return that ability's `CanActivateAbility` verdict. -/
def canActivateScan : List FGameplayAbilitySpec → List FGameplayTag → Bool
  | [], _ => false
  | spec :: rest, queryTags =>
      match spec.ability with
      | none => canActivateScan rest queryTags
      | some ability =>
          if hasAllTags ability.assetTags queryTags then
            ability.canActivateAbility
          else canActivateScan rest queryTags

/-- Model of `CanActivateAbilityWithMatchingTags`: `none` models a null
`AbilitySystemComponent` pointer. -/
def CanActivateAbilityWithMatchingTags (abilitySystemComponent : Option UAbilitySystemComponent)
    (gameplayAbilityTags : List FGameplayTag) : Bool :=
  match abilitySystemComponent with
  | some comp => canActivateScan comp.activatableAbilities gameplayAbilityTags
  | none => false

/-- A spec the scan stops at: a non-null ability whose asset tags contain
all the queried tags. -/
def isMatchingSpec (queryTags : List FGameplayTag) (spec : FGameplayAbilitySpec) : Bool :=
  match spec.ability with
  | none => false
  | some ability => hasAllTags ability.assetTags queryTags

end UKaosUtilitiesBlueprintLibrary

/-! ## `UKaosTargetingFilterTask_GameplayTags::ShouldFilterTarget` -/

/-- Model of `FGameplayTagRequirements` as the filter consults it: require and
ignore tag lists (the engine type's optional tag query is empty throughout
this plugin and is not consulted by the claim).  `IsEmpty` and
`RequirementsMet` follow the engine semantics over flat tag lists. -/
structure FGameplayTagRequirements where
  requireTags : List FGameplayTag
  ignoreTags : List FGameplayTag
deriving DecidableEq, Repr

/-- Emptiness test `FGameplayTagRequirements::IsEmpty`. -/
def FGameplayTagRequirements.isEmpty (r : FGameplayTagRequirements) : Bool :=
  r.requireTags.isEmpty && r.ignoreTags.isEmpty

/-- Model of `FGameplayTagRequirements::RequirementsMet`: all require tags present
and no ignore tag present. -/
def FGameplayTagRequirements.requirementsMet (r : FGameplayTagRequirements)
    (container : List FGameplayTag) : Bool :=
  hasAllTags container r.requireTags && !(hasAnyTags container r.ignoreTags)

/-- The candidate target as the filter sees it: the owned tags obtainable
from an ability system component on the hit actor, and those obtainable
from the actor's `IGameplayTagAssetInterface`; `none` models the lookup
failing (no actor, no component / no interface). -/
structure FTargetingDefaultResultData where
  ascOwnedTags : Option (List FGameplayTag)
  interfaceOwnedTags : Option (List FGameplayTag)
deriving DecidableEq, Repr

namespace UKaosTargetingFilterTask_GameplayTags

/-- The owned-tag lookup chain: the ability system component first, else
the tag asset interface, else no tags. -/
def ownedTagsOf (targetData : FTargetingDefaultResultData) : List FGameplayTag :=
  match targetData.ascOwnedTags with
  | some tags => tags
  | none =>
      match targetData.interfaceOwnedTags with
      | some tags => tags
      | none => []

/-- Model of `ShouldFilterTarget`: only when owned tags were found and the
requirements are non-empty is the predicate consulted; it filters exactly
when the requirements are not met. -/
def ShouldFilterTarget (gameplayTagRequirements : FGameplayTagRequirements)
    (targetData : FTargetingDefaultResultData) : Bool :=
  let ownedTags := ownedTagsOf targetData
  if 0 < ownedTags.length && !gameplayTagRequirements.isEmpty then
    !(gameplayTagRequirements.requirementsMet ownedTags)
  else false

end UKaosTargetingFilterTask_GameplayTags


/-- Some event in the list marks the fast array dirty, either through
`MarkItemDirty` or through `MarkArrayDirty`. -/
def marksDirty (es : List KaosEvent) : Prop :=
  (∃ t, KaosEvent.markItemDirty t ∈ es) ∨ KaosEvent.markArrayDirty ∈ es


/-! ## Association-map lemmas -/

theorem TagMap.find?_add {β : Type} (m : TagMap β) (k u : FGameplayTag) (v : β) :
    (m.add k v).find? u = if k = u then some v else m.find? u := by
  induction m with
  | nil =>
      by_cases h : k = u <;> simp [TagMap.add, TagMap.find?, h]
  | cons p rest ih =>
      obtain ⟨k', v'⟩ := p
      by_cases hk : k' = k
      · subst hk
        by_cases hu : k' = u <;> simp [TagMap.add, TagMap.find?, hu]
      · by_cases hu : k' = u
        · subst hu
          have : ¬ k = k' := fun h => hk h.symm
          simp [TagMap.add, TagMap.find?, hk, this]
        · simp [TagMap.add, TagMap.find?, hk, hu, ih]

theorem TagMap.find?_remove {β : Type} (m : TagMap β) (k u : FGameplayTag) :
    (m.remove k).find? u = if k = u then none else m.find? u := by
  induction m with
  | nil => by_cases h : k = u <;> simp [TagMap.remove, TagMap.find?, h]
  | cons p rest ih =>
      obtain ⟨k', v'⟩ := p
      by_cases hk : k' = k
      · subst hk
        by_cases hu : k' = u
        · subst hu
          simp [TagMap.remove, TagMap.find?, ih]
        · simp [TagMap.remove, TagMap.find?, hu, ih]
      · by_cases hu : k' = u
        · subst hu
          have : ¬ k = k' := fun h => hk h.symm
          simp [TagMap.remove, TagMap.find?, hk, this]
        · simp [TagMap.remove, TagMap.find?, hk, hu, ih]

theorem TagMap.contains_iff {β : Type} (m : TagMap β) (k : FGameplayTag) :
    m.contains k = true ↔ ∃ v, m.find? k = some v := by
  simp [TagMap.contains, Option.isSome_iff_exists]

/-! ## `removeAtSwap` characterization -/

theorem length_removeAtSwap {α : Type} (xs : List α) (i : Nat)
    (h : i < xs.length) : (removeAtSwap xs i).length = xs.length - 1 := by
  have hne : xs ≠ [] := by
    intro hnil
    simp [hnil] at h
  obtain ⟨lastElem, hlast⟩ := Option.isSome_iff_exists.mp
    (List.getLast?_isSome.mpr hne)
  simp [removeAtSwap, hlast, List.length_dropLast]

theorem getElem?_removeAtSwap {α : Type} (xs : List α) (i : Nat)
    (h : i < xs.length) (j : Nat) :
    (removeAtSwap xs i)[j]? =
      if j < xs.length - 1 then
        (if j = i then xs[xs.length - 1]? else xs[j]?)
      else none := by
  have hne : xs ≠ [] := by
    intro hnil
    simp [hnil] at h
  obtain ⟨lastElem, hlast⟩ := Option.isSome_iff_exists.mp
    (List.getLast?_isSome.mpr hne)
  have hlast' : xs[xs.length - 1]? = some lastElem := by
    rw [← List.getLast?_eq_getElem?]
    exact hlast
  simp only [removeAtSwap, hlast, List.dropLast_eq_take, List.length_set,
    List.getElem?_take]
  by_cases hj : j < xs.length - 1
  · by_cases hij : j = i
    · subst hij
      simp [hj, List.getElem?_set, h, hlast']
    · have hij' : ¬ i = j := fun hh => hij hh.symm
      simp [hj, List.getElem?_set, hij, hij']
  · simp [hj]

theorem exists_getElem?_of_lt {α : Type} (xs : List α) (i : Nat)
    (h : i < xs.length) : ∃ a, xs[i]? = some a := by
  cases hx : xs[i]? with
  | none => exact absurd (List.getElem?_eq_none_iff.mp hx) (Nat.not_le_of_lt h)
  | some a => exact ⟨a, rfl⟩

/-! ## Preservation of the invariant -/

namespace FKaosGameplayTagStackContainer

/-- Under `WF`, two positions carrying the same tag coincide. -/
theorem WF.position_inj {c : FKaosGameplayTagStackContainer} (hwf : WF c)
    {j k : Nat} {sj sk : FKaosGameplayTagStack}
    (hj : c.Stacks[j]? = some sj) (hk : c.Stacks[k]? = some sk)
    (htag : sj.tag = sk.tag) : j = k := by
  have h1 : c.TagToIndexMap.find? sj.tag = some j :=
    (hwf.2.1 sj.tag j).mpr ⟨sj, hj, rfl⟩
  have h2 : c.TagToIndexMap.find? sj.tag = some k :=
    (hwf.2.1 sj.tag k).mpr ⟨sk, hk, htag.symm⟩
  exact Option.some.inj (h1.symm.trans h2)

/-- A fresh container is well-formed. -/
theorem WF_empty (b : Bool) : WF (empty b) := by
  refine ⟨?_, ?_, ?_⟩
  · intro t n
    simp [empty, TagMap.find?]
  · intro t i
    simp [empty, TagMap.find?]
  · intro s hs
    simp [empty] at hs

/-- The swap-delete performed by the removal branches of `RemoveStackCount`
and `RemoveStack` preserves well-formedness: the entry found through
`TagToIndexMap` leaves `Stacks`, its tag leaves both maps, and the
swapped-in entry's index binding is re-pointed. -/
theorem WF_delete (c : FKaosGameplayTagStackContainer) (Tag : FGameplayTag)
    (i : Nat) (hwf : WF c) (hidx : c.TagToIndexMap.find? Tag = some i) :
    WF { c with
      Stacks := removeAtSwap c.Stacks i
      TagToCountMap := c.TagToCountMap.remove Tag
      TagToIndexMap :=
        (if i < (removeAtSwap c.Stacks i).length then
          c.TagToIndexMap.add ((removeAtSwap c.Stacks i).getD i default).tag i
        else c.TagToIndexMap).remove Tag } := by
  obtain ⟨hcount, hindex, hpos⟩ := hwf
  have hwf' : WF c := ⟨hcount, hindex, hpos⟩
  obtain ⟨si, hsi, hsitag⟩ := (hindex Tag i).mp hidx
  have hiL : i < c.Stacks.length := by
    by_contra hge
    rw [List.getElem?_eq_none_iff.mpr (Nat.le_of_not_lt hge)] at hsi
    exact Option.noConfusion hsi
  have hlen' : (removeAtSwap c.Stacks i).length = c.Stacks.length - 1 :=
    length_removeAtSwap _ _ hiL
  have hget : ∀ j, (removeAtSwap c.Stacks i)[j]? =
      if j < c.Stacks.length - 1 then
        (if j = i then c.Stacks[c.Stacks.length - 1]? else c.Stacks[j]?)
      else none :=
    getElem?_removeAtSwap _ _ hiL
  obtain ⟨slast, hslast⟩ :=
    exists_getElem?_of_lt c.Stacks (c.Stacks.length - 1) (by omega)
  -- Every slot `j` of the shrunk array holds the old slot `j`, except slot
  -- `i`, which holds the old last element.
  have hcorr : ∀ j, j < c.Stacks.length - 1 →
      (removeAtSwap c.Stacks i)[j]? =
        c.Stacks[if j = i then c.Stacks.length - 1 else j]? := by
    intro j hj
    rw [hget j, if_pos hj]
    by_cases hji : j = i
    · rw [if_pos hji, if_pos hji]
    · rw [if_neg hji, if_neg hji]
  have hlt' : ∀ j s, (removeAtSwap c.Stacks i)[j]? = some s →
      j < c.Stacks.length - 1 := by
    intro j s hj
    by_contra hge
    rw [hget j, if_neg hge] at hj
    exact Option.noConfusion hj
  have hbound : ∀ j s, c.Stacks[j]? = some s → j < c.Stacks.length := by
    intro j s hj
    by_contra hge
    rw [List.getElem?_eq_none_iff.mpr (Nat.le_of_not_lt hge)] at hj
    exact Option.noConfusion hj
  -- A tag equal to the removed one pins the position to `i`, and slot `i`
  -- holds `si`.
  have htag_ne : ∀ k s, c.Stacks[k]? = some s → s.tag = Tag → k = i :=
    fun k s hk htagk => WF.position_inj hwf' hk hsi (htagk.trans hsitag.symm)
  -- No entry of the shrunk array carries the removed tag.
  have hgone : ∀ (j : Nat) (s : FKaosGameplayTagStack),
      (removeAtSwap c.Stacks i)[j]? = some s → s.tag ≠ Tag := by
    intro j s hj htagj
    have hjlt := hlt' j s hj
    rw [hcorr j hjlt] at hj
    have := htag_ne _ s hj htagj
    by_cases hji : j = i
    · rw [if_pos hji] at this
      omega
    · rw [if_neg hji] at this
      omega
  -- The value of the new index map at each tag.
  have hidxfind : ∀ u,
      ((if i < (removeAtSwap c.Stacks i).length then
          c.TagToIndexMap.add ((removeAtSwap c.Stacks i).getD i default).tag i
        else c.TagToIndexMap).remove Tag).find? u =
      if Tag = u then none
      else if i < c.Stacks.length - 1 then
        (if slast.tag = u then some i else c.TagToIndexMap.find? u)
      else c.TagToIndexMap.find? u := by
    intro u
    by_cases hrep : i < c.Stacks.length - 1
    · have hrep' : i < (removeAtSwap c.Stacks i).length := by omega
      have hsw : (removeAtSwap c.Stacks i)[i]? = some slast := by
        rw [hcorr i hrep, if_pos rfl]
        exact hslast
      have hgd : (removeAtSwap c.Stacks i).getD i default = slast := by
        simp [List.getD_eq_getElem?_getD, hsw]
      rw [if_pos hrep', hgd, TagMap.find?_remove, TagMap.find?_add, if_pos hrep]
    · have hrep' : ¬ i < (removeAtSwap c.Stacks i).length := by omega
      rw [if_neg hrep', TagMap.find?_remove, if_neg hrep]
  refine ⟨?_, ?_, ?_⟩
  · -- Count-map clause.
    intro t n
    rw [TagMap.find?_remove]
    by_cases ht : Tag = t
    · subst ht
      rw [if_pos rfl]
      constructor
      · intro h
        exact Option.noConfusion h
      · rintro ⟨s, hsmem, hstag, hscnt⟩
        obtain ⟨j, hj⟩ := List.mem_iff_getElem?.mp hsmem
        exact absurd hstag (hgone j s hj)
    · rw [if_neg ht, hcount t n]
      constructor
      · rintro ⟨s, hsmem, hstag, hscnt⟩
        obtain ⟨k, hk⟩ := List.mem_iff_getElem?.mp hsmem
        have hkL := hbound k s hk
        have hki : k ≠ i := by
          intro hki
          subst hki
          rw [hsi] at hk
          have hss : si = s := Option.some.inj hk
          apply ht
          rw [← hstag, ← hss, hsitag]
        by_cases hklast : k = c.Stacks.length - 1
        · have hilt : i < c.Stacks.length - 1 := by omega
          refine ⟨s, List.mem_iff_getElem?.mpr ⟨i, ?_⟩, hstag, hscnt⟩
          rw [hcorr i hilt, if_pos rfl, ← hklast]
          exact hk
        · have hklt : k < c.Stacks.length - 1 := by omega
          refine ⟨s, List.mem_iff_getElem?.mpr ⟨k, ?_⟩, hstag, hscnt⟩
          rw [hcorr k hklt, if_neg hki]
          exact hk
      · rintro ⟨s, hsmem, hstag, hscnt⟩
        obtain ⟨j, hj⟩ := List.mem_iff_getElem?.mp hsmem
        have hjlt := hlt' j s hj
        rw [hcorr j hjlt] at hj
        exact ⟨s, List.mem_iff_getElem?.mpr ⟨_, hj⟩, hstag, hscnt⟩
  · -- Index-map clause.
    intro t j
    rw [hidxfind t]
    by_cases ht : Tag = t
    · subst ht
      rw [if_pos rfl]
      constructor
      · intro h
        exact Option.noConfusion h
      · rintro ⟨s, hs, hstag⟩
        exact absurd hstag (hgone j s hs)
    · rw [if_neg ht]
      by_cases hrep : i < c.Stacks.length - 1
      · rw [if_pos hrep]
        by_cases ht2 : slast.tag = t
        · rw [if_pos ht2]
          constructor
          · intro h
            have hji : i = j := Option.some.inj h
            subst hji
            refine ⟨slast, ?_, ht2⟩
            rw [hcorr i hrep, if_pos rfl]
            exact hslast
          · rintro ⟨s, hs, hstag⟩
            have hjlt := hlt' j s hs
            rw [hcorr j hjlt] at hs
            by_cases hji : j = i
            · rw [hji]
            · rw [if_neg hji] at hs
              have := WF.position_inj hwf' hs hslast (hstag.trans ht2.symm)
              omega
        · rw [if_neg ht2, hindex t j]
          constructor
          · rintro ⟨s, hs, hstag⟩
            have hjL := hbound j s hs
            have hji : j ≠ i := by
              intro hji
              subst hji
              rw [hsi] at hs
              have hss : si = s := Option.some.inj hs
              apply ht
              rw [← hstag, ← hss, hsitag]
            have hjlast : j ≠ c.Stacks.length - 1 := by
              intro hjl
              subst hjl
              rw [hslast] at hs
              have hss : slast = s := Option.some.inj hs
              apply ht2
              rw [← hstag, ← hss]
            have hjlt : j < c.Stacks.length - 1 := by omega
            refine ⟨s, ?_, hstag⟩
            rw [hcorr j hjlt, if_neg hji]
            exact hs
          · rintro ⟨s, hs, hstag⟩
            have hjlt := hlt' j s hs
            rw [hcorr j hjlt] at hs
            by_cases hji : j = i
            · rw [if_pos hji] at hs
              have hss : slast = s := by
                rw [hslast] at hs
                exact Option.some.inj hs
              exact absurd (by rw [hss]; exact hstag) ht2
            · rw [if_neg hji] at hs
              exact ⟨s, hs, hstag⟩
      · rw [if_neg hrep, hindex t j]
        constructor
        · rintro ⟨s, hs, hstag⟩
          have hjL := hbound j s hs
          have hji : j ≠ i := by
            intro hji
            subst hji
            rw [hsi] at hs
            have hss : si = s := Option.some.inj hs
            apply ht
            rw [← hstag, ← hss, hsitag]
          have hjlt : j < c.Stacks.length - 1 := by omega
          refine ⟨s, ?_, hstag⟩
          rw [hcorr j hjlt, if_neg hji]
          exact hs
        · rintro ⟨s, hs, hstag⟩
          have hjlt := hlt' j s hs
          rw [hcorr j hjlt] at hs
          have hji : j ≠ i := by omega
          rw [if_neg hji] at hs
          exact ⟨s, hs, hstag⟩
  · -- Positivity.
    intro s hsmem
    obtain ⟨j, hj⟩ := List.mem_iff_getElem?.mp hsmem
    have hjlt := hlt' j s hj
    rw [hcorr j hjlt] at hj
    exact hpos s (List.mem_iff_getElem?.mpr ⟨_, hj⟩)

/-- Overwriting the entry found through `TagToIndexMap` with one carrying
the same tag and a positive count, while recording that count in
`TagToCountMap`, preserves well-formedness.  This is the shape of the
increment branch of `AddStackCount` and the decrement branch of
`RemoveStackCount`. -/
theorem WF_set (c : FKaosGameplayTagStackContainer) (Tag : FGameplayTag)
    (i : Nat) (s' : FKaosGameplayTagStack) (hwf : WF c)
    (hidx : c.TagToIndexMap.find? Tag = some i) (htag : s'.tag = Tag)
    (hpos' : 0 < s'.stackCount) :
    WF { c with
      Stacks := c.Stacks.set i s'
      TagToCountMap := c.TagToCountMap.add Tag s'.stackCount } := by
  obtain ⟨hcount, hindex, hpos⟩ := hwf
  have hwf' : WF c := ⟨hcount, hindex, hpos⟩
  obtain ⟨si, hsi, hsitag⟩ := (hindex Tag i).mp hidx
  have hiL : i < c.Stacks.length := by
    by_contra hge
    rw [List.getElem?_eq_none_iff.mpr (Nat.le_of_not_lt hge)] at hsi
    exact Option.noConfusion hsi
  have htag_ne : ∀ (k : Nat) (s : FKaosGameplayTagStack),
      c.Stacks[k]? = some s → s.tag = Tag → k = i :=
    fun k s hk htagk => WF.position_inj hwf' hk hsi (htagk.trans hsitag.symm)
  have hset : ∀ j, (c.Stacks.set i s')[j]? =
      if j = i then some s' else c.Stacks[j]? := by
    intro j
    rw [List.getElem?_set]
    by_cases hij : i = j
    · subst hij
      rw [if_pos rfl, if_pos hiL, if_pos rfl]
    · rw [if_neg hij, if_neg (fun h => hij h.symm)]
  refine ⟨?_, ?_, ?_⟩
  · intro t m
    rw [TagMap.find?_add]
    by_cases ht : Tag = t
    · subst ht
      rw [if_pos rfl]
      constructor
      · intro h
        refine ⟨s', List.mem_iff_getElem?.mpr ⟨i, by rw [hset i, if_pos rfl]⟩,
          htag, (Option.some.inj h)⟩
      · rintro ⟨s, hsmem, hstag, hscnt⟩
        obtain ⟨j, hj⟩ := List.mem_iff_getElem?.mp hsmem
        rw [hset j] at hj
        by_cases hji : j = i
        · rw [if_pos hji] at hj
          have hss : s' = s := Option.some.inj hj
          rw [← hscnt, ← hss]
        · rw [if_neg hji] at hj
          exact absurd (htag_ne j s hj hstag) hji
    · rw [if_neg ht, hcount t m]
      constructor
      · rintro ⟨s, hsmem, hstag, hscnt⟩
        obtain ⟨k, hk⟩ := List.mem_iff_getElem?.mp hsmem
        have hki : k ≠ i := by
          intro hki
          subst hki
          rw [hsi] at hk
          have hss : si = s := Option.some.inj hk
          apply ht
          rw [← hstag, ← hss, hsitag]
        refine ⟨s, List.mem_iff_getElem?.mpr ⟨k, ?_⟩, hstag, hscnt⟩
        rw [hset k, if_neg hki]
        exact hk
      · rintro ⟨s, hsmem, hstag, hscnt⟩
        obtain ⟨j, hj⟩ := List.mem_iff_getElem?.mp hsmem
        rw [hset j] at hj
        by_cases hji : j = i
        · rw [if_pos hji] at hj
          have hss : s' = s := Option.some.inj hj
          have : Tag = t := by rw [← htag, hss, hstag]
          exact absurd this ht
        · rw [if_neg hji] at hj
          exact ⟨s, List.mem_iff_getElem?.mpr ⟨j, hj⟩, hstag, hscnt⟩
  · intro t j
    rw [hindex t j]
    constructor
    · rintro ⟨s, hs, hstag⟩
      by_cases hji : j = i
      · subst hji
        rw [hsi] at hs
        have hss : si = s := Option.some.inj hs
        refine ⟨s', by rw [hset _, if_pos rfl], ?_⟩
        rw [htag, ← hsitag, hss, hstag]
      · refine ⟨s, ?_, hstag⟩
        rw [hset j, if_neg hji]
        exact hs
    · rintro ⟨s, hs, hstag⟩
      rw [hset j] at hs
      by_cases hji : j = i
      · subst hji
        rw [if_pos rfl] at hs
        have hss : s' = s := Option.some.inj hs
        refine ⟨si, hsi, ?_⟩
        rw [hsitag, ← htag, hss, hstag]
      · rw [if_neg hji] at hs
        exact ⟨s, hs, hstag⟩
  · intro s hsmem
    obtain ⟨j, hj⟩ := List.mem_iff_getElem?.mp hsmem
    rw [hset j] at hj
    by_cases hji : j = i
    · rw [if_pos hji] at hj
      have hss : s' = s := Option.some.inj hj
      rw [← hss]
      exact hpos'
    · rw [if_neg hji] at hj
      exact hpos s (List.mem_iff_getElem?.mpr ⟨j, hj⟩)

/-- Emplacing a fresh entry at the back and recording it in both maps
preserves well-formedness.  This is the shape of the insert branch of
`AddStackCount`. -/
theorem WF_insert (c : FKaosGameplayTagStackContainer) (Tag : FGameplayTag)
    (n : Int) (hwf : WF c) (hnone : c.TagToIndexMap.find? Tag = none)
    (hn : 0 < n) :
    WF { c with
      Stacks := c.Stacks ++ [⟨Tag, n, 0⟩]
      TagToCountMap := c.TagToCountMap.add Tag n
      TagToIndexMap := c.TagToIndexMap.add Tag c.Stacks.length } := by
  obtain ⟨hcount, hindex, hpos⟩ := hwf
  have hnotin : ∀ (k : Nat) (s : FKaosGameplayTagStack),
      c.Stacks[k]? = some s → s.tag ≠ Tag := by
    intro k s hk htagk
    have : c.TagToIndexMap.find? Tag = some k := (hindex Tag k).mpr ⟨s, hk, htagk⟩
    rw [hnone] at this
    exact Option.noConfusion this
  have happ : ∀ j, (c.Stacks ++ [(⟨Tag, n, 0⟩ : FKaosGameplayTagStack)])[j]? =
      if j < c.Stacks.length then c.Stacks[j]?
      else if j = c.Stacks.length then some ⟨Tag, n, 0⟩ else none := by
    intro j
    rw [List.getElem?_append]
    by_cases hj : j < c.Stacks.length
    · rw [if_pos hj, if_pos hj]
    · rw [if_neg hj, if_neg hj]
      by_cases hjl : j = c.Stacks.length
      · subst hjl
        rw [if_pos rfl, Nat.sub_self]
        rfl
      · rw [if_neg hjl]
        have : 1 ≤ j - c.Stacks.length := by omega
        cases hd : j - c.Stacks.length with
        | zero => omega
        | succ m => rfl
  have hbound : ∀ (j : Nat) (s : FKaosGameplayTagStack),
      c.Stacks[j]? = some s → j < c.Stacks.length := by
    intro j s hj
    by_contra hge
    rw [List.getElem?_eq_none_iff.mpr (Nat.le_of_not_lt hge)] at hj
    exact Option.noConfusion hj
  refine ⟨?_, ?_, ?_⟩
  · intro t m
    rw [TagMap.find?_add]
    by_cases ht : Tag = t
    · subst ht
      rw [if_pos rfl]
      constructor
      · intro h
        refine ⟨⟨Tag, n, 0⟩, List.mem_iff_getElem?.mpr ⟨c.Stacks.length, ?_⟩,
          rfl, Option.some.inj h⟩
        rw [happ c.Stacks.length, if_neg (Nat.lt_irrefl _), if_pos rfl]
      · rintro ⟨s, hsmem, hstag, hscnt⟩
        obtain ⟨j, hj⟩ := List.mem_iff_getElem?.mp hsmem
        rw [happ j] at hj
        by_cases hjlt : j < c.Stacks.length
        · rw [if_pos hjlt] at hj
          exact absurd hstag (hnotin j s hj)
        · rw [if_neg hjlt] at hj
          by_cases hjl : j = c.Stacks.length
          · rw [if_pos hjl] at hj
            have hss : (⟨Tag, n, 0⟩ : FKaosGameplayTagStack) = s :=
              Option.some.inj hj
            rw [← hscnt, ← hss]
          · rw [if_neg hjl] at hj
            exact Option.noConfusion hj
    · rw [if_neg ht, hcount t m]
      constructor
      · rintro ⟨s, hsmem, hstag, hscnt⟩
        obtain ⟨k, hk⟩ := List.mem_iff_getElem?.mp hsmem
        refine ⟨s, List.mem_iff_getElem?.mpr ⟨k, ?_⟩, hstag, hscnt⟩
        rw [happ k, if_pos (hbound k s hk)]
        exact hk
      · rintro ⟨s, hsmem, hstag, hscnt⟩
        obtain ⟨j, hj⟩ := List.mem_iff_getElem?.mp hsmem
        rw [happ j] at hj
        by_cases hjlt : j < c.Stacks.length
        · rw [if_pos hjlt] at hj
          exact ⟨s, List.mem_iff_getElem?.mpr ⟨j, hj⟩, hstag, hscnt⟩
        · rw [if_neg hjlt] at hj
          by_cases hjl : j = c.Stacks.length
          · rw [if_pos hjl] at hj
            have hss : (⟨Tag, n, 0⟩ : FKaosGameplayTagStack) = s :=
              Option.some.inj hj
            exact absurd (by rw [← hss] at hstag; exact hstag) ht
          · rw [if_neg hjl] at hj
            exact Option.noConfusion hj
  · intro t j
    rw [TagMap.find?_add]
    by_cases ht : Tag = t
    · subst ht
      rw [if_pos rfl]
      constructor
      · intro h
        have hjl : c.Stacks.length = j := Option.some.inj h
        subst hjl
        refine ⟨⟨Tag, n, 0⟩, ?_, rfl⟩
        rw [happ c.Stacks.length, if_neg (Nat.lt_irrefl _), if_pos rfl]
      · rintro ⟨s, hs, hstag⟩
        rw [happ j] at hs
        by_cases hjlt : j < c.Stacks.length
        · rw [if_pos hjlt] at hs
          exact absurd hstag (hnotin j s hs)
        · rw [if_neg hjlt] at hs
          by_cases hjl : j = c.Stacks.length
          · rw [hjl]
          · rw [if_neg hjl] at hs
            exact Option.noConfusion hs
    · rw [if_neg ht, hindex t j]
      constructor
      · rintro ⟨s, hs, hstag⟩
        refine ⟨s, ?_, hstag⟩
        rw [happ j, if_pos (hbound j s hs)]
        exact hs
      · rintro ⟨s, hs, hstag⟩
        rw [happ j] at hs
        by_cases hjlt : j < c.Stacks.length
        · rw [if_pos hjlt] at hs
          exact ⟨s, hs, hstag⟩
        · rw [if_neg hjlt] at hs
          by_cases hjl : j = c.Stacks.length
          · rw [if_pos hjl] at hs
            have hss : (⟨Tag, n, 0⟩ : FKaosGameplayTagStack) = s :=
              Option.some.inj hs
            exact absurd (by rw [← hss] at hstag; exact hstag) ht
          · rw [if_neg hjl] at hs
            exact Option.noConfusion hs
  · intro s hsmem
    obtain ⟨j, hj⟩ := List.mem_iff_getElem?.mp hsmem
    rw [happ j] at hj
    by_cases hjlt : j < c.Stacks.length
    · rw [if_pos hjlt] at hj
      exact hpos s (List.mem_iff_getElem?.mpr ⟨j, hj⟩)
    · rw [if_neg hjlt] at hj
      by_cases hjl : j = c.Stacks.length
      · rw [if_pos hjl] at hj
        have hss : (⟨Tag, n, 0⟩ : FKaosGameplayTagStack) = s :=
          Option.some.inj hj
        rw [← hss]
        exact hn
      · rw [if_neg hjl] at hj
        exact Option.noConfusion hj

/-- Mutation `AddStackCount` preserves well-formedness. -/
theorem WF_AddStackCount (c : FKaosGameplayTagStackContainer)
    (Tag : FGameplayTag) (n : Int) (hwf : WF c) :
    WF (c.AddStackCount Tag n).1 := by
  unfold AddStackCount
  by_cases hv : Tag.isValid = false
  · rw [if_pos hv]
    exact hwf
  · rw [if_neg hv]
    by_cases hn : 0 < n
    · rw [if_pos hn]
      cases hfind : c.TagToIndexMap.find? Tag with
      | some i =>
          obtain ⟨si, hsi, hsitag⟩ := (hwf.2.1 Tag i).mp hfind
          have hgd : c.Stacks.getD i default = si := by
            simp [List.getD_eq_getElem?_getD, hsi]
          simp only [hfind, hgd]
          have hsipos : 0 < si.stackCount :=
            hwf.2.2 si (List.mem_iff_getElem?.mpr ⟨i, hsi⟩)
          exact WF_set c Tag i _ hwf hfind hsitag (by positivity)
      | none =>
          simp only [hfind]
          exact WF_insert c Tag n hwf hfind hn
    · rw [if_neg hn]
      exact hwf

/-- Mutation `RemoveStackCount` preserves well-formedness. -/
theorem WF_RemoveStackCount (c : FKaosGameplayTagStackContainer)
    (Tag : FGameplayTag) (n : Int) (hwf : WF c) :
    WF (c.RemoveStackCount Tag n).1 := by
  unfold RemoveStackCount
  by_cases hv : Tag.isValid = false
  · rw [if_pos hv]
    exact hwf
  · rw [if_neg hv]
    by_cases hn : n ≤ 0
    · rw [if_pos hn]
      exact hwf
    · rw [if_neg hn]
      cases hfind : c.TagToIndexMap.find? Tag with
      | none =>
          simp only [hfind]
          exact hwf
      | some i =>
          obtain ⟨si, hsi, hsitag⟩ := (hwf.2.1 Tag i).mp hfind
          have hiL : i < c.Stacks.length := by
            by_contra hge
            rw [List.getElem?_eq_none_iff.mpr (Nat.le_of_not_lt hge)] at hsi
            exact Option.noConfusion hsi
          have hgd : c.Stacks.getD i default = si := by
            simp [List.getD_eq_getElem?_getD, hsi]
          simp only [hfind, hgd]
          rw [if_pos hiL]
          by_cases hle : si.stackCount ≤ n
          · rw [if_pos hle]
            exact WF_delete c Tag i hwf hfind
          · rw [if_neg hle]
            refine WF_set c Tag i _ hwf hfind hsitag ?_
            show 0 < si.stackCount - n
            omega

/-- Mutation `RemoveStack` preserves well-formedness. -/
theorem WF_RemoveStack (c : FKaosGameplayTagStackContainer)
    (Tag : FGameplayTag) (hwf : WF c) :
    WF (c.RemoveStack Tag).1 := by
  unfold RemoveStack
  by_cases hv : Tag.isValid = false
  · rw [if_pos hv]
    exact hwf
  · rw [if_neg hv]
    cases hfind : c.TagToIndexMap.find? Tag with
    | none =>
        simp only [hfind]
        exact hwf
    | some i =>
        obtain ⟨si, hsi, hsitag⟩ := (hwf.2.1 Tag i).mp hfind
        have hiL : i < c.Stacks.length := by
          by_contra hge
          rw [List.getElem?_eq_none_iff.mpr (Nat.le_of_not_lt hge)] at hsi
          exact Option.noConfusion hsi
        simp only [hfind]
        rw [if_pos hiL]
        exact WF_delete c Tag i hwf hfind

/-- Every local mutation preserves well-formedness. -/
theorem WF_applyOp_local (c : FKaosGameplayTagStackContainer) (op : KaosOp)
    (hwf : WF c) (hloc : op.isLocal = true) : WF (c.applyOp op).1 := by
  cases op with
  | addStackCount Tag n => exact WF_AddStackCount c Tag n hwf
  | removeStackCount Tag n => exact WF_RemoveStackCount c Tag n hwf
  | removeStack Tag => exact WF_RemoveStack c Tag hwf
  | replicatedAdd _ => exact absurd hloc (by simp [KaosOp.isLocal])
  | replicatedChange _ _ => exact absurd hloc (by simp [KaosOp.isLocal])
  | replicatedRemove _ => exact absurd hloc (by simp [KaosOp.isLocal])

/-- Any sequence of local mutations preserves well-formedness. -/
theorem WF_runOps (ops : List KaosOp) (c : FKaosGameplayTagStackContainer)
    (hwf : WF c) (hloc : ∀ op ∈ ops, op.isLocal = true) :
    WF (c.runOps ops) := by
  induction ops generalizing c with
  | nil => exact hwf
  | cons op rest ih =>
      exact ih (c.applyOp op).1
        (WF_applyOp_local c op hwf (hloc op (List.mem_cons_self op rest)))
        (fun o ho => hloc o (List.mem_cons_of_mem op ho))

/-- Well-formedness entails the consistency property of claim C1. -/
theorem WF.claimConsistent {c : FKaosGameplayTagStackContainer} (hwf : WF c) :
    ClaimConsistent c := by
  obtain ⟨hcount, hindex, hpos⟩ := hwf
  refine ⟨?_, ?_, ?_⟩
  · intro t
    rw [TagMap.contains_iff]
    constructor
    · rintro ⟨v, hv⟩
      obtain ⟨s, hsmem, hstag, _⟩ := (hcount t v).mp hv
      exact ⟨s, hsmem, hstag⟩
    · rintro ⟨s, hsmem, hstag⟩
      exact ⟨s.stackCount, (hcount t s.stackCount).mpr ⟨s, hsmem, hstag, rfl⟩⟩
  · intro s hsmem
    exact (hcount s.tag s.stackCount).mpr ⟨s, hsmem, rfl, rfl⟩
  · intro s hsmem
    obtain ⟨j, hj⟩ := List.mem_iff_getElem?.mp hsmem
    exact ⟨j, (hindex s.tag j).mpr ⟨s, hj, rfl⟩, hj⟩

end FKaosGameplayTagStackContainer

/-! ## Supporting characterizations -/

namespace UKaosUtilitiesBlueprintLibrary

/-- The scan stops at the first matching spec, in `List.find?` form. -/
theorem canActivateScan_eq_find (specs : List FGameplayAbilitySpec)
    (queryTags : List FGameplayTag) :
    canActivateScan specs queryTags =
      match specs.find? (isMatchingSpec queryTags) with
      | none => false
      | some spec =>
          match spec.ability with
          | none => false
          | some ability => ability.canActivateAbility := by
  induction specs with
  | nil => rfl
  | cons spec rest ih =>
      cases hab : spec.ability with
      | none =>
          have hnm : isMatchingSpec queryTags spec = false := by
            simp [isMatchingSpec, hab]
          rw [List.find?_cons_of_neg _ (by simp [hnm])]
          simpa [canActivateScan, hab] using ih
      | some ability =>
          by_cases hm : hasAllTags ability.assetTags queryTags = true
          · have hmm : isMatchingSpec queryTags spec = true := by
              simp [isMatchingSpec, hab, hm]
            rw [List.find?_cons_of_pos _ hmm]
            simp [canActivateScan, hab, hm]
          · have hnm : isMatchingSpec queryTags spec = false := by
              simp [isMatchingSpec, hab]
              exact Bool.not_eq_true _ ▸ hm
            rw [List.find?_cons_of_neg _ (by simp [hnm])]
            simp only [canActivateScan, hab]
            rw [if_neg hm]
            exact ih

end UKaosUtilitiesBlueprintLibrary

/-- Lookup after the accumulation loop of `GetStackCountIncludingChildren`:
tags in the iterated list get their stored count or `0`; others fall back
to the accumulator. -/
theorem find?_fold_counts (m : TagMap Int) (cs : List FGameplayTag)
    (acc : TagMap Int) (k : FGameplayTag) :
    (cs.foldl (fun result child =>
        match m.find? child with
        | some count => result.add child count
        | none => result.add child 0) acc).find? k =
      if k ∈ cs then some ((m.find? k).getD 0) else acc.find? k := by
  induction cs generalizing acc with
  | nil => simp
  | cons chd rest ih =>
      rw [List.foldl_cons, ih]
      by_cases hk : k ∈ rest
      · rw [if_pos hk, if_pos (List.mem_cons_of_mem chd hk)]
      · rw [if_neg hk]
        by_cases hkc : k = chd
        · subst hkc
          rw [if_pos (List.mem_cons_self k rest)]
          cases hf : m.find? k with
          | none => simp [hf, TagMap.find?_add]
          | some v => simp [hf, TagMap.find?_add]
        · rw [if_neg (by simp [hkc, hk])]
          have hck : ¬ chd = k := fun h => hkc h.symm
          cases hf : m.find? chd with
          | none => rw [TagMap.find?_add, if_neg hck]
          | some v => rw [TagMap.find?_add, if_neg hck]

/-! ## The claims -/

open FKaosGameplayTagStackContainer
open UKaosUtilitiesBlueprintLibrary
open UKaosTargetingFilterTask_GameplayTags

/-- C6: `CanActivateAbilityWithMatchingTags` returns `false` on a null
ability system component; otherwise it scans the activatable ability specs
in order, skips null abilities, and returns the `CanActivateAbility`
verdict of the first spec whose asset tags contain all the queried tags —
`false` when no spec matches, and later matches are never consulted. -/
theorem canActivateAbilityWithMatchingTags_firstMatch
    (abilitySystemComponent : Option UAbilitySystemComponent)
    (gameplayAbilityTags : List FGameplayTag) :
    CanActivateAbilityWithMatchingTags abilitySystemComponent gameplayAbilityTags =
      match abilitySystemComponent with
      | none => false
      | some comp =>
          match comp.activatableAbilities.find? (isMatchingSpec gameplayAbilityTags) with
          | none => false
          | some spec =>
              match spec.ability with
              | none => false
              | some ability => ability.canActivateAbility := by
  cases abilitySystemComponent with
  | none => rfl
  | some comp =>
      exact canActivateScan_eq_find comp.activatableAbilities gameplayAbilityTags

/-- C7: `ShouldFilterTarget` excludes a candidate exactly when the owned
tags found on the target are non-empty, the configured requirements are
non-empty, and the owned tags do not meet them; in every other case the
candidate is kept. -/
theorem shouldFilterTarget_iff (gameplayTagRequirements : FGameplayTagRequirements)
    (targetData : FTargetingDefaultResultData) :
    ShouldFilterTarget gameplayTagRequirements targetData = true ↔
      (ownedTagsOf targetData ≠ [] ∧
       gameplayTagRequirements.isEmpty = false ∧
       gameplayTagRequirements.requirementsMet (ownedTagsOf targetData) = false) := by
  unfold ShouldFilterTarget
  by_cases h1 : (0 < (ownedTagsOf targetData).length &&
      !gameplayTagRequirements.isEmpty) = true
  · rw [if_pos h1]
    rw [Bool.and_eq_true, Bool.not_eq_true', decide_eq_true_iff] at h1
    constructor
    · intro h2
      rw [Bool.not_eq_true'] at h2
      exact ⟨List.length_pos.mp h1.1, h1.2, h2⟩
    · rintro ⟨_, _, hmet⟩
      rw [hmet]
      rfl
  · rw [if_neg h1]
    rw [Bool.and_eq_true, Bool.not_eq_true', decide_eq_true_iff, not_and_or] at h1
    constructor
    · intro h2
      exact Bool.noConfusion h2
    · rintro ⟨hne, hempty, _⟩
      rcases h1 with h1 | h1
      · exact absurd (List.length_pos.mpr hne) h1
      · exact absurd hempty h1

/-- C10: the result of `GetStackCountIncludingChildren` binds exactly the
tag's children — plus the queried tag itself when `bExcludeParent` is
`false` — each to its stored stack count, or to `0` when it has no stacks;
no other tag appears. -/
theorem getStackCountIncludingChildren_spec
    (children : FGameplayTag → List FGameplayTag)
    (c : FKaosGameplayTagStackContainer) (Tag : FGameplayTag)
    (bExcludeParent : Bool) (k : FGameplayTag) :
    (GetStackCountIncludingChildren children c Tag bExcludeParent).find? k =
      if k ∈ children Tag ∨ (bExcludeParent = false ∧ k = Tag) then
        some ((c.TagToCountMap.find? k).getD 0)
      else none := by
  unfold GetStackCountIncludingChildren
  rw [find?_fold_counts]
  have hiff : (k ∈ children Tag ++ (if bExcludeParent then [] else [Tag])) ↔
      (k ∈ children Tag ∨ (bExcludeParent = false ∧ k = Tag)) := by
    cases bExcludeParent <;> simp
  by_cases hmem : k ∈ children Tag ++ (if bExcludeParent then [] else [Tag])
  · rw [if_pos hmem, if_pos (hiff.mp hmem)]
  · rw [if_neg hmem, if_neg (fun hc => hmem (hiff.mpr hc))]
    rfl

namespace FKaosGameplayTagStackContainer

/-- Under `WF`, the claim-level notion "the tag is stored" (`ContainsTag`,
through `TagToCountMap`) coincides with the code's branch condition
(`TagToIndexMap.Find`). -/
theorem WF.containsTag_iff_index {c : FKaosGameplayTagStackContainer}
    (hwf : WF c) (Tag : FGameplayTag) :
    c.ContainsTag Tag = true ↔ ∃ i, c.TagToIndexMap.find? Tag = some i := by
  rw [ContainsTag, TagMap.contains_iff]
  constructor
  · rintro ⟨v, hv⟩
    obtain ⟨s, hsmem, hstag, _⟩ := (hwf.1 Tag v).mp hv
    obtain ⟨j, hj⟩ := List.mem_iff_getElem?.mp hsmem
    exact ⟨j, (hwf.2.1 Tag j).mpr ⟨s, hj, hstag⟩⟩
  · rintro ⟨i, hi⟩
    obtain ⟨s, hs, hstag⟩ := (hwf.2.1 Tag i).mp hi
    exact ⟨s.stackCount,
      (hwf.1 Tag s.stackCount).mpr ⟨s, List.mem_iff_getElem?.mpr ⟨i, hs⟩, hstag, rfl⟩⟩

/-- Under `WF`, `GetStackCount` returns the count of the entry the index
map points at. -/
theorem WF.getStackCount_eq {c : FKaosGameplayTagStackContainer} (hwf : WF c)
    {Tag : FGameplayTag} {i : Nat} {si : FKaosGameplayTagStack}
    (_hi : c.TagToIndexMap.find? Tag = some i) (hsi : c.Stacks[i]? = some si)
    (hsitag : si.tag = Tag) : c.GetStackCount Tag = si.stackCount := by
  have hv : c.TagToCountMap.find? Tag = some si.stackCount :=
    (hwf.1 Tag si.stackCount).mpr
      ⟨si, List.mem_iff_getElem?.mpr ⟨i, hsi⟩, hsitag, rfl⟩
  rw [GetStackCount, TagMap.findRef, hv]
  rfl

/-- Under `WF`, the maps only hold positive counts, membership coincides
with a positive `GetStackCount`, and absent tags read `0`. -/
theorem WF.query_facts {c : FKaosGameplayTagStackContainer} (hwf : WF c) :
    (∀ t n, c.TagToCountMap.find? t = some n → 0 < n) ∧
    (∀ t, c.ContainsTag t = true ↔ 0 < c.GetStackCount t) ∧
    (∀ t, c.ContainsTag t = false → c.GetStackCount t = 0) := by
  have hq1 : ∀ t n, c.TagToCountMap.find? t = some n → 0 < n := by
    intro t n hn
    obtain ⟨s, hsmem, _, hcnt⟩ := (hwf.1 t n).mp hn
    rw [← hcnt]
    exact hwf.2.2 s hsmem
  refine ⟨hq1, ?_, ?_⟩
  · intro t
    constructor
    · intro hc
      obtain ⟨v, hv⟩ := (TagMap.contains_iff _ _).mp hc
      rw [GetStackCount, TagMap.findRef, hv]
      exact hq1 t v hv
    · intro hpos
      cases hfind : c.TagToCountMap.find? t with
      | none =>
          rw [GetStackCount, TagMap.findRef, hfind] at hpos
          exact absurd hpos (by norm_num)
      | some v =>
          exact (TagMap.contains_iff _ _).mpr ⟨v, hfind⟩
  · intro t hc
    cases hfind : c.TagToCountMap.find? t with
    | none => rw [GetStackCount, TagMap.findRef, hfind]; rfl
    | some v =>
        rw [ContainsTag, TagMap.contains, hfind] at hc
        exact Bool.noConfusion hc

end FKaosGameplayTagStackContainer

/-- C2: for every valid tag and `StackCount > 0`, `AddStackCount`
increments-or-inserts: a stored tag's count becomes the old count plus
`StackCount` and the owner is notified changed with the old and new counts;
an unstored tag gets a fresh `(tag, StackCount)` entry and the owner is
notified added with `StackCount`. -/
theorem addStackCount_incrementsOrInserts (c : FKaosGameplayTagStackContainer)
    (Tag : FGameplayTag) (StackCount : Int) (hwf : WF c)
    (hv : Tag.isValid = true) (hn : 0 < StackCount) (ho : c.hasOwner = true) :
    (c.ContainsTag Tag = true →
      (c.AddStackCount Tag StackCount).1.GetStackCount Tag
          = c.GetStackCount Tag + StackCount ∧
      (c.AddStackCount Tag StackCount).2 =
        [KaosEvent.onTagStackChanged Tag (c.GetStackCount Tag)
            (c.GetStackCount Tag + StackCount),
         KaosEvent.markItemDirty Tag, KaosEvent.forceReplication]) ∧
    (c.ContainsTag Tag = false →
      (c.AddStackCount Tag StackCount).1.Stacks
          = c.Stacks ++ [⟨Tag, StackCount, 0⟩] ∧
      (c.AddStackCount Tag StackCount).1.GetStackCount Tag = StackCount ∧
      (c.AddStackCount Tag StackCount).2 =
        [KaosEvent.onTagStackAdded Tag StackCount,
         KaosEvent.markItemDirty Tag, KaosEvent.forceReplication]) := by
  have hvne : ¬ Tag.isValid = false := by rw [hv]; exact Bool.noConfusion
  cases hfind : c.TagToIndexMap.find? Tag with
  | some i =>
      obtain ⟨si, hsi, hsitag⟩ := (hwf.2.1 Tag i).mp hfind
      have hgd : c.Stacks.getD i default = si := by
        simp [List.getD_eq_getElem?_getD, hsi]
      have hcnt : c.GetStackCount Tag = si.stackCount :=
        hwf.getStackCount_eq hfind hsi hsitag
      constructor
      · intro _
        unfold AddStackCount
        rw [if_neg hvne, if_pos hn]
        simp only [hfind, hgd]
        rw [hcnt]
        constructor
        · show TagMap.findRef
            (c.TagToCountMap.add Tag (si.stackCount + StackCount)) Tag = _
          rw [TagMap.findRef, TagMap.find?_add, if_pos rfl]
          rfl
        · simp [ownerNotify, ho]
      · intro hcf
        have hct : c.ContainsTag Tag = true :=
          (hwf.containsTag_iff_index Tag).mpr ⟨i, hfind⟩
        rw [hct] at hcf
        exact Bool.noConfusion hcf
  | none =>
      constructor
      · intro hct
        obtain ⟨i, hi⟩ := (hwf.containsTag_iff_index Tag).mp hct
        rw [hfind] at hi
        exact Option.noConfusion hi
      · intro _
        unfold AddStackCount
        rw [if_neg hvne, if_pos hn]
        simp only [hfind]
        refine ⟨by trivial, ?_, ?_⟩
        · show TagMap.findRef (c.TagToCountMap.add Tag StackCount) Tag = _
          rw [TagMap.findRef, TagMap.find?_add, if_pos rfl]
          rfl
        · simp [ownerNotify, ho]

/-- C3: for a stored tag and `StackCount > 0`, `RemoveStackCount`
decrements-or-deletes: when the stored count exceeds `StackCount` it is
decremented and the owner notified changed with the old and new counts;
otherwise the entry is deleted by swap-removal, the swapped-in entry's
index is re-pointed (well-formedness is preserved), and the owner is
notified removed with the previous count and `0`. -/
theorem removeStackCount_decrementsOrDeletes (c : FKaosGameplayTagStackContainer)
    (Tag : FGameplayTag) (StackCount : Int) (hwf : WF c)
    (hv : Tag.isValid = true) (hn : 0 < StackCount)
    (hstored : c.ContainsTag Tag = true) (ho : c.hasOwner = true) :
    (StackCount < c.GetStackCount Tag →
      (c.RemoveStackCount Tag StackCount).1.GetStackCount Tag
          = c.GetStackCount Tag - StackCount ∧
      (c.RemoveStackCount Tag StackCount).1.ContainsTag Tag = true ∧
      (c.RemoveStackCount Tag StackCount).2 =
        [KaosEvent.onTagStackChanged Tag (c.GetStackCount Tag)
            (c.GetStackCount Tag - StackCount),
         KaosEvent.markItemDirty Tag, KaosEvent.forceReplication]) ∧
    (c.GetStackCount Tag ≤ StackCount →
      (c.RemoveStackCount Tag StackCount).1.ContainsTag Tag = false ∧
      (∀ u, ¬ u = Tag →
        (c.RemoveStackCount Tag StackCount).1.GetStackCount u
            = c.GetStackCount u) ∧
      (∃ i, c.TagToIndexMap.find? Tag = some i ∧
        (c.RemoveStackCount Tag StackCount).1.Stacks = removeAtSwap c.Stacks i) ∧
      WF (c.RemoveStackCount Tag StackCount).1 ∧
      (c.RemoveStackCount Tag StackCount).2 =
        [KaosEvent.onTagStackRemoved Tag (c.GetStackCount Tag) 0,
         KaosEvent.markArrayDirty, KaosEvent.forceReplication]) := by
  have hvne : ¬ Tag.isValid = false := by rw [hv]; exact Bool.noConfusion
  have hnle : ¬ StackCount ≤ 0 := by omega
  obtain ⟨i, hfind⟩ := (hwf.containsTag_iff_index Tag).mp hstored
  obtain ⟨si, hsi, hsitag⟩ := (hwf.2.1 Tag i).mp hfind
  have hiL : i < c.Stacks.length := by
    by_contra hge
    rw [List.getElem?_eq_none_iff.mpr (Nat.le_of_not_lt hge)] at hsi
    exact Option.noConfusion hsi
  have hgd : c.Stacks.getD i default = si := by
    simp [List.getD_eq_getElem?_getD, hsi]
  have hcnt : c.GetStackCount Tag = si.stackCount :=
    hwf.getStackCount_eq hfind hsi hsitag
  have hwfres : WF (c.RemoveStackCount Tag StackCount).1 :=
    WF_RemoveStackCount c Tag StackCount hwf
  unfold RemoveStackCount
  rw [if_neg hvne, if_neg hnle]
  simp only [hfind, hgd]
  rw [if_pos hiL]
  by_cases hle : si.stackCount ≤ StackCount
  · rw [if_pos hle]
    constructor
    · intro hlt
      rw [hcnt] at hlt
      omega
    · intro _
      rw [hcnt]
      refine ⟨?_, ?_, ⟨i, rfl, rfl⟩, ?_, ?_⟩
      · show TagMap.contains (c.TagToCountMap.remove Tag) Tag = false
        rw [TagMap.contains, TagMap.find?_remove, if_pos rfl]
        rfl
      · intro u hu
        show TagMap.findRef (c.TagToCountMap.remove Tag) u = _
        rw [TagMap.findRef, TagMap.find?_remove, if_neg (fun h => hu h.symm)]
        rfl
      · unfold RemoveStackCount at hwfres
        rw [if_neg hvne, if_neg hnle] at hwfres
        simp only [hfind, hgd] at hwfres
        rw [if_pos hiL, if_pos hle] at hwfres
        exact hwfres
      · simp [ownerNotify, ho]
  · rw [if_neg hle]
    constructor
    · intro _
      rw [hcnt]
      refine ⟨?_, ?_, ?_⟩
      · show TagMap.findRef
          (c.TagToCountMap.add Tag (si.stackCount - StackCount)) Tag = _
        rw [TagMap.findRef, TagMap.find?_add, if_pos rfl]
        rfl
      · show TagMap.contains
          (c.TagToCountMap.add Tag (si.stackCount - StackCount)) Tag = true
        rw [TagMap.contains, TagMap.find?_add, if_pos rfl]
        rfl
      · simp [ownerNotify, ho]
    · intro hge
      rw [hcnt] at hge
      omega
/-- C4: every content-changing mutation — an `AddStackCount` insert or
increment, a `RemoveStackCount` decrement or deletion, a `RemoveStack`
deletion — both marks the changed item or the whole array dirty and
forwards a `ForceReplication` request to the owner. -/
theorem mutationsMarkDirtyAndForceReplication
    (c : FKaosGameplayTagStackContainer) (Tag : FGameplayTag)
    (StackCount : Int) (hwf : WF c) (ho : c.hasOwner = true) :
    (Tag.isValid = true → 0 < StackCount →
      marksDirty (c.AddStackCount Tag StackCount).2 ∧
      KaosEvent.forceReplication ∈ (c.AddStackCount Tag StackCount).2) ∧
    (Tag.isValid = true → 0 < StackCount → c.ContainsTag Tag = true →
      marksDirty (c.RemoveStackCount Tag StackCount).2 ∧
      KaosEvent.forceReplication ∈ (c.RemoveStackCount Tag StackCount).2) ∧
    (Tag.isValid = true → c.ContainsTag Tag = true →
      marksDirty (c.RemoveStack Tag).2 ∧
      KaosEvent.forceReplication ∈ (c.RemoveStack Tag).2) := by
  refine ⟨?_, ?_, ?_⟩
  · intro hv hn
    have hvne : ¬ Tag.isValid = false := by rw [hv]; exact Bool.noConfusion
    unfold AddStackCount
    rw [if_neg hvne, if_pos hn]
    cases hfind : c.TagToIndexMap.find? Tag with
    | some i =>
        simp only [hfind]
        exact ⟨Or.inl ⟨Tag, by simp [ownerNotify, ho]⟩, by simp [ownerNotify, ho]⟩
    | none =>
        simp only [hfind]
        exact ⟨Or.inl ⟨Tag, by simp [ownerNotify, ho]⟩, by simp [ownerNotify, ho]⟩
  · intro hv hn hstored
    have hvne : ¬ Tag.isValid = false := by rw [hv]; exact Bool.noConfusion
    have hnle : ¬ StackCount ≤ 0 := by omega
    obtain ⟨i, hfind⟩ := (hwf.containsTag_iff_index Tag).mp hstored
    obtain ⟨si, hsi, _⟩ := (hwf.2.1 Tag i).mp hfind
    have hiL : i < c.Stacks.length := by
      by_contra hge
      rw [List.getElem?_eq_none_iff.mpr (Nat.le_of_not_lt hge)] at hsi
      exact Option.noConfusion hsi
    unfold RemoveStackCount
    rw [if_neg hvne, if_neg hnle]
    simp only [hfind]
    rw [if_pos hiL]
    by_cases hle : (c.Stacks.getD i default).stackCount ≤ StackCount
    · rw [if_pos hle]
      exact ⟨Or.inr (by simp [ownerNotify, ho]), by simp [ownerNotify, ho]⟩
    · rw [if_neg hle]
      exact ⟨Or.inl ⟨Tag, by simp [ownerNotify, ho]⟩, by simp [ownerNotify, ho]⟩
  · intro hv hstored
    have hvne : ¬ Tag.isValid = false := by rw [hv]; exact Bool.noConfusion
    obtain ⟨i, hfind⟩ := (hwf.containsTag_iff_index Tag).mp hstored
    obtain ⟨si, hsi, _⟩ := (hwf.2.1 Tag i).mp hfind
    have hiL : i < c.Stacks.length := by
      by_contra hge
      rw [List.getElem?_eq_none_iff.mpr (Nat.le_of_not_lt hge)] at hsi
      exact Option.noConfusion hsi
    unfold RemoveStack
    rw [if_neg hvne]
    simp only [hfind]
    rw [if_pos hiL]
    exact ⟨Or.inr (by simp [ownerNotify, ho]), by simp [ownerNotify, ho]⟩

/-- C8: an invalid tag makes all three mutators return with the container
untouched and no events — no notification, no dirty marking, no forced
replication; likewise `StackCount ≤ 0` for `AddStackCount` and
`RemoveStackCount`. -/
theorem invalidOrNonpositiveInputIsNoOp (c : FKaosGameplayTagStackContainer)
    (Tag : FGameplayTag) (StackCount : Int) :
    (Tag.isValid = false →
      c.AddStackCount Tag StackCount = (c, []) ∧
      c.RemoveStackCount Tag StackCount = (c, []) ∧
      c.RemoveStack Tag = (c, [])) ∧
    (StackCount ≤ 0 →
      c.AddStackCount Tag StackCount = (c, []) ∧
      c.RemoveStackCount Tag StackCount = (c, [])) := by
  constructor
  · intro hinv
    refine ⟨?_, ?_, ?_⟩
    · unfold AddStackCount
      rw [if_pos hinv]
    · unfold RemoveStackCount
      rw [if_pos hinv]
    · unfold RemoveStack
      rw [if_pos hinv]
  · intro hnp
    constructor
    · unfold AddStackCount
      by_cases hinv : Tag.isValid = false
      · rw [if_pos hinv]
      · rw [if_neg hinv, if_neg (by omega : ¬ 0 < StackCount)]
    · unfold RemoveStackCount
      by_cases hinv : Tag.isValid = false
      · rw [if_pos hinv]
      · rw [if_neg hinv, if_pos hnp]

/-- C9: starting from an empty container, after any sequence of local
mutations every stored count — in the replicated list and in the
accelerated map — is strictly positive; hence `ContainsTag` holds exactly
when `GetStackCount` is positive, and absent tags read `0`. -/
theorem localHistories_positiveCounts (ops : List KaosOp) (b : Bool)
    (hloc : ∀ op ∈ ops, op.isLocal = true) :
    (∀ s ∈ ((empty b).runOps ops).Stacks, 0 < s.stackCount) ∧
    (∀ t n, ((empty b).runOps ops).TagToCountMap.find? t = some n → 0 < n) ∧
    (∀ t, ((empty b).runOps ops).ContainsTag t = true ↔
        0 < ((empty b).runOps ops).GetStackCount t) ∧
    (∀ t, ((empty b).runOps ops).ContainsTag t = false →
        ((empty b).runOps ops).GetStackCount t = 0) := by
  have hwf : WF ((empty b).runOps ops) :=
    WF_runOps ops (empty b) (WF_empty b) hloc
  exact ⟨hwf.2.2, hwf.query_facts⟩

/-- C9 witness: a concrete two-step local history. -/
theorem localHistories_positiveCounts_witness :
    (∀ s ∈ ((empty true).runOps
        [KaosOp.addStackCount ⟨1⟩ 2, KaosOp.removeStackCount ⟨1⟩ 1]).Stacks,
      0 < s.stackCount) ∧
    (((empty true).runOps
        [KaosOp.addStackCount ⟨1⟩ 2, KaosOp.removeStackCount ⟨1⟩ 1]).ContainsTag ⟨1⟩
          = true ↔
      0 < ((empty true).runOps
        [KaosOp.addStackCount ⟨1⟩ 2, KaosOp.removeStackCount ⟨1⟩ 1]).GetStackCount ⟨1⟩) := by
  have h := localHistories_positiveCounts
    [KaosOp.addStackCount ⟨1⟩ 2, KaosOp.removeStackCount ⟨1⟩ 1] true (by decide)
  exact ⟨h.1, h.2.2.1 ⟨1⟩⟩

/-- C1 counterexample: one `PostReplicatedAdd` event (the serializer
appends the replicated entry, then the callback runs) leaves
`TagToIndexMap` empty while `Stacks` holds the entry, so the claimed
consistency of the index map fails. -/
theorem replicatedAddBreaksIndexMap :
    ¬ ClaimConsistent ((empty true).runOps
        [KaosOp.replicatedAdd [⟨⟨1⟩, 3, 0⟩]]) := by
  intro h
  obtain ⟨i, hfind, _⟩ := h.2.2 ⟨⟨1⟩, 3, 3⟩ (by decide)
  have hnone : ((empty true).runOps
      [KaosOp.replicatedAdd [⟨⟨1⟩, 3, 0⟩]]).TagToIndexMap = [] := rfl
  rw [hnone] at hfind
  exact Option.noConfusion hfind

/-- C1 amended: the consistency — count map iff some entry carries the
tag, mapped count equal to the entry's count, index map pointing at the
entry — holds for every sequence of the three local mutations from an
empty container; the replication callbacks maintain only `TagToCountMap`
and leave `TagToIndexMap` untouched. -/
theorem localHistories_keepConsistency (ops : List KaosOp) (b : Bool)
    (hloc : ∀ op ∈ ops, op.isLocal = true) :
    ClaimConsistent ((empty b).runOps ops) :=
  (WF_runOps ops (empty b) (WF_empty b) hloc).claimConsistent

/-- C1 witness: after one concrete insertion the index map points at the
entry. -/
theorem localHistories_keepConsistency_witness :
    ∃ i, ((empty true).runOps
        [KaosOp.addStackCount ⟨1⟩ 2]).TagToIndexMap.find? ⟨1⟩ = some i ∧
      ((empty true).runOps [KaosOp.addStackCount ⟨1⟩ 2]).Stacks[i]?
          = some ⟨⟨1⟩, 2, 0⟩ :=
  (localHistories_keepConsistency [KaosOp.addStackCount ⟨1⟩ 2] true
    (by decide)).2.2 ⟨⟨1⟩, 2, 0⟩ (by decide)

/-- C5 counterexample: a replicated change of the single entry from count
`2` to count `5` makes `PostReplicatedChange` call `OnTagStackChanged` with
`(5, 5)` — the post-change count in both slots, because `PreviousCount` is
overwritten before the call — not with the claimed `(2, 5)`. -/
theorem postReplicatedChangeForwardsPostChangeCountTwice :
    (FKaosGameplayTagStackContainer.applyOp
        { Stacks := [⟨⟨1⟩, 2, 2⟩], TagToCountMap := [(⟨1⟩, 2)],
          TagToIndexMap := [], hasOwner := true }
        (KaosOp.replicatedChange 0 ⟨⟨1⟩, 5, 2⟩)).2
      = [KaosEvent.onTagStackChanged ⟨1⟩ 5 5] ∧
    ¬ (FKaosGameplayTagStackContainer.applyOp
        { Stacks := [⟨⟨1⟩, 2, 2⟩], TagToCountMap := [(⟨1⟩, 2)],
          TagToIndexMap := [], hasOwner := true }
        (KaosOp.replicatedChange 0 ⟨⟨1⟩, 5, 2⟩)).2
      = [KaosEvent.onTagStackChanged ⟨1⟩ 2 5] := by
  constructor
  · rfl
  · decide

/-- C5 amended: for an in-range index, `PreReplicatedRemove` drops the tag
from the count map and notifies removed with the entry's count and `0`;
`PostReplicatedAdd` records the replicated count and notifies added with
it; `PostReplicatedChange` records the replicated count but notifies
changed with the post-change count in both count slots (`PreviousCount` is
overwritten with `StackCount` before the call); none of the callbacks
touches `TagToIndexMap` or (by itself) the tags and counts in `Stacks`. -/
theorem replicationCallbacks_behaviour (c : FKaosGameplayTagStackContainer)
    (i : Nat) (s : FKaosGameplayTagStack) (hs : c.Stacks[i]? = some s)
    (ho : c.hasOwner = true) :
    ((c.PreReplicatedRemove [i]).1.TagToCountMap
        = c.TagToCountMap.remove s.tag ∧
     (c.PreReplicatedRemove [i]).1.TagToIndexMap = c.TagToIndexMap ∧
     (c.PreReplicatedRemove [i]).1.Stacks = c.Stacks ∧
     (c.PreReplicatedRemove [i]).2 =
       [KaosEvent.onTagStackRemoved s.tag s.stackCount 0]) ∧
    ((c.PostReplicatedAdd [i]).1.TagToCountMap
        = c.TagToCountMap.add s.tag s.stackCount ∧
     (c.PostReplicatedAdd [i]).1.TagToIndexMap = c.TagToIndexMap ∧
     (c.PostReplicatedAdd [i]).2 =
       [KaosEvent.onTagStackAdded s.tag s.stackCount]) ∧
    ((c.PostReplicatedChange [i]).1.TagToCountMap
        = c.TagToCountMap.add s.tag s.stackCount ∧
     (c.PostReplicatedChange [i]).1.TagToIndexMap = c.TagToIndexMap ∧
     (c.PostReplicatedChange [i]).2 =
       [KaosEvent.onTagStackChanged s.tag s.stackCount s.stackCount]) := by
  have hiL : i < c.Stacks.length := by
    by_contra hge
    rw [List.getElem?_eq_none_iff.mpr (Nat.le_of_not_lt hge)] at hs
    exact Option.noConfusion hs
  have hgd : c.Stacks.getD i default = s := by
    simp [List.getD_eq_getElem?_getD, hs]
  refine ⟨?_, ?_, ?_⟩
  · unfold PreReplicatedRemove
    rw [List.foldl_cons, List.foldl_nil]
    simp only [if_pos hiL, hgd]
    exact ⟨by trivial, by trivial, by trivial, by simp [ownerNotify, ho]⟩
  · unfold PostReplicatedAdd
    rw [List.foldl_cons, List.foldl_nil]
    simp only [if_pos hiL, hgd]
    exact ⟨by trivial, by trivial, by simp [ownerNotify, ho]⟩
  · unfold PostReplicatedChange
    rw [List.foldl_cons, List.foldl_nil]
    simp only [if_pos hiL, hgd]
    exact ⟨by trivial, by trivial, by simp [ownerNotify, ho]⟩

/-- C2 witness: incrementing a concretely stored tag. -/
theorem addStackCount_incrementsOrInserts_witness :
    ((empty true).runOps [KaosOp.addStackCount ⟨1⟩ 2]).ContainsTag ⟨1⟩ = true ∧
    (((empty true).runOps [KaosOp.addStackCount ⟨1⟩ 2]).AddStackCount ⟨1⟩ 3).1.GetStackCount ⟨1⟩
        = ((empty true).runOps [KaosOp.addStackCount ⟨1⟩ 2]).GetStackCount ⟨1⟩ + 3 := by
  have h := addStackCount_incrementsOrInserts
    ((empty true).runOps [KaosOp.addStackCount ⟨1⟩ 2]) ⟨1⟩ 3
    (WF_runOps [KaosOp.addStackCount ⟨1⟩ 2] (empty true) (WF_empty true)
      (by decide))
    (by decide) (by decide) (by decide)
  exact ⟨by decide, (h.1 (by decide)).1⟩

/-- C3 witness: deleting a concretely stored tag by over-removal. -/
theorem removeStackCount_decrementsOrDeletes_witness :
    (((empty true).runOps [KaosOp.addStackCount ⟨1⟩ 2]).RemoveStackCount ⟨1⟩ 5).1.ContainsTag ⟨1⟩
        = false ∧
    (((empty true).runOps [KaosOp.addStackCount ⟨1⟩ 2]).RemoveStackCount ⟨1⟩ 5).2 =
      [KaosEvent.onTagStackRemoved ⟨1⟩ 2 0, KaosEvent.markArrayDirty,
       KaosEvent.forceReplication] := by
  have h := removeStackCount_decrementsOrDeletes
    ((empty true).runOps [KaosOp.addStackCount ⟨1⟩ 2]) ⟨1⟩ 5
    (WF_runOps [KaosOp.addStackCount ⟨1⟩ 2] (empty true) (WF_empty true)
      (by decide))
    (by decide) (by decide) (by decide) (by decide)
  exact ⟨(h.2 (by decide)).1, (h.2 (by decide)).2.2.2.2⟩

/-- C4 witness: a concrete increment both marks dirty and forces
replication. -/
theorem mutationsMarkDirtyAndForceReplication_witness :
    marksDirty (((empty true).runOps [KaosOp.addStackCount ⟨1⟩ 2]).AddStackCount ⟨1⟩ 3).2 ∧
    KaosEvent.forceReplication ∈
      (((empty true).runOps [KaosOp.addStackCount ⟨1⟩ 2]).AddStackCount ⟨1⟩ 3).2 :=
  (mutationsMarkDirtyAndForceReplication
    ((empty true).runOps [KaosOp.addStackCount ⟨1⟩ 2]) ⟨1⟩ 3
    (WF_runOps [KaosOp.addStackCount ⟨1⟩ 2] (empty true) (WF_empty true)
      (by decide))
    (by decide)).1 (by decide) (by decide)

/-- C8 witness: a concrete invalid-tag call and a concrete non-positive
count call are no-ops. -/
theorem invalidOrNonpositiveInputIsNoOp_witness :
    (empty true).RemoveStack ⟨0⟩ = ((empty true), []) ∧
    (empty true).AddStackCount ⟨1⟩ (-1) = ((empty true), []) :=
  ⟨((invalidOrNonpositiveInputIsNoOp (empty true) ⟨0⟩ (-1)).1 (by decide)).2.2,
   ((invalidOrNonpositiveInputIsNoOp (empty true) ⟨1⟩ (-1)).2 (by decide)).1⟩

/-- C5 witness: a concrete in-range `PostReplicatedChange` emission. -/
theorem replicationCallbacks_behaviour_witness :
    (({ Stacks := [⟨⟨1⟩, 4, 0⟩], TagToCountMap := [(⟨1⟩, 4)],
        TagToIndexMap := [(⟨1⟩, 0)], hasOwner := true } :
          FKaosGameplayTagStackContainer).PostReplicatedChange [0]).2
      = [KaosEvent.onTagStackChanged ⟨1⟩ 4 4] :=
  (replicationCallbacks_behaviour
    { Stacks := [⟨⟨1⟩, 4, 0⟩], TagToCountMap := [(⟨1⟩, 4)],
      TagToIndexMap := [(⟨1⟩, 0)], hasOwner := true }
    0 ⟨⟨1⟩, 4, 0⟩ (by decide) (by decide)).2.2.2.2
